import Mathlib

/-!
Shallow embedding of the version-ordering, plugin-directory-resolution and
directory-mirroring core of the getgauge/common library, together with
theorems settling the specification claims about it.

Go machine integers (the platform int used by strconv.Atoi) are modelled as
Int with the explicit int64 range check that strconv performs; fallible Go
functions returning (T, error) are modelled as Except String T (or Option T
when no claim depends on the error text); the filesystem is modelled as an
explicit state passed to each function.
-/

namespace GetgaugeCommon

/-- Embedding of the unexported Go struct version {major, minor, patch int}. -/

structure version where
  major : Int
  minor : Int
  patch : Int
deriving DecidableEq, Repr

/-- Embedding of (version1 *version) isGreaterThan(version2 *version) bool:
nested if chain comparing major, then minor, then patch. -/

def isGreaterThan (version1 version2 : version) : Bool :=
  if version1.major > version2.major then
    true
  else if version1.major = version2.major then
    if version1.minor > version2.minor then
      true
    else if version1.minor = version2.minor then
      if version1.patch > version2.patch then
        true
      else
        false
    else
      false
  else
    false

/-- Insertion step of the comparison sort that embeds sort.Sort on
ByDecreasingVersion: an element is placed before the first element it is
strictly greater than, yielding a non-increasing list. -/

def insertDec (v : version) : List version → List version
  | [] => [v]
  | w :: ws => if isGreaterThan v w then v :: w :: ws else w :: insertDec v ws

/-- Embedding of sort.Sort(ByDecreasingVersion(versions)): a comparison sort
whose Less relation is isGreaterThan, producing a non-increasing permutation
of the input. -/

def sortDec : List version → List version
  | [] => []
  | v :: vs => insertDec v (sortDec vs)

/-- Embedding of getLatestVersion(versions []*version) *version: sorts by
decreasing version and takes element 0. Go panics with an index-out-of-range
runtime error on an empty slice; the panic is modelled as none. -/

def getLatestVersion (versions : List version) : Option version :=
  match sortDec versions with
  | [] => none
  | v :: _ => some v

/-- Lexicographic strict order on (major, minor, patch), the order the spec
describes for versions. -/

def lexGt (a b : version) : Prop :=
  a.major > b.major ∨
    (a.major = b.major ∧
      (a.minor > b.minor ∨ (a.minor = b.minor ∧ a.patch > b.patch)))

instance (a b : version) : Decidable (lexGt a b) := by
  unfold lexGt
  infer_instance

/-- Non-strict companion of lexGt: equal or lexicographically greater. -/

def lexGe (a b : version) : Prop := a = b ∨ lexGt a b

/-! Decimal printing and parsing, modelling the Go standard library pieces
parseVersion and version.String rely on: strconv.Atoi, strings.Split and
the %d verb of fmt.Sprintf. -/

/-- Character for one decimal digit d < 10, as produced by fmt's %d verb. -/

def digitChar (d : Nat) : Char := Char.ofNat (48 + d)

/-- Digit-emission loop of fmt's %d for a non-negative value: peels decimal
digits from the low end onto an accumulator. -/

def natToDecAux (n : Nat) (acc : List Char) : List Char :=
  if n < 10 then digitChar n :: acc
  else natToDecAux (n / 10) (digitChar (n % 10) :: acc)
termination_by n
decreasing_by omega

/-- Decimal representation of a Nat, as printed by fmt's %d verb. -/

def natToDec (n : Nat) : String := String.mk (natToDecAux n [])

/-- Decimal representation of a Go int, as printed by fmt's %d verb: a minus
sign followed by the magnitude for negative values. -/

def intToDec (i : Int) : String :=
  if i < 0 then "-" ++ natToDec i.natAbs else natToDec i.toNat

/-- Embedding of (version *version) String(): fmt.Sprintf("%d.%d.%d", major,
minor, patch). -/

def version.String (v : version) : String :=
  intToDec v.major ++ "." ++ intToDec v.minor ++ "." ++ intToDec v.patch

/-- Value of a decimal digit character, none when the character is not one of
0-9. -/

def digit? (c : Char) : Option Nat :=
  if 48 ≤ c.toNat ∧ c.toNat ≤ 57 then some (c.toNat - 48) else none

/-- Digit-accumulation loop of strconv's decimal scan. -/

def parseDigitsAux (acc : Nat) : List Char → Option Nat
  | [] => some acc
  | c :: cs =>
    match digit? c with
    | some d => parseDigitsAux (acc * 10 + d) cs
    | none => none

/-- Decimal scan of a digit string: fails on an empty string or on any
non-digit character. -/

def parseDigits : List Char → Option Nat
  | [] => none
  | cs => parseDigitsAux 0 cs

/-- Failure modes of strconv.Atoi: a malformed number or a value outside the
platform int range. -/

inductive atoiError where
  | syntaxErr
  | rangeErr
deriving DecidableEq, Repr

/-- Largest value of the 64-bit Go int that strconv.Atoi targets. -/

def int64Max : Int := 9223372036854775807

/-- Smallest value of the 64-bit Go int that strconv.Atoi targets. -/

def int64Min : Int := -9223372036854775808

/-- Embedding of strconv.Atoi(s string) (int, error): an optional single sign
character followed by at least one decimal digit, with the value required to
fit the 64-bit platform int. -/

def goAtoi (s : String) : Except atoiError Int :=
  match s.data with
  | [] => .error .syntaxErr
  | c :: rest =>
    match parseDigits (if c = '-' ∨ c = '+' then rest else c :: rest) with
    | none => .error .syntaxErr
    | some n =>
      let v : Int := if c = '-' then -(n : Int) else (n : Int)
      if int64Min ≤ v ∧ v ≤ int64Max then .ok v else .error .rangeErr

/-- Message of strconv's NumError as Atoi produces it:
strconv.Atoi: parsing %q: reason. The %q quoting is modelled as plain
double-quoting, which coincides with Go for strings whose characters need no
escaping. -/

def atoiErrorMsg (s : String) : atoiError → String
  | .syntaxErr => "strconv.Atoi: parsing \x22" ++ s ++ "\x22: invalid syntax"
  | .rangeErr => "strconv.Atoi: parsing \x22" ++ s ++ "\x22: value out of range"

/-- Separator scan of strings.Split for a one-character separator, processing
the character list from the right: returns the segment currently being built
and the list of completed later segments. -/

def splitAux (sep : Char) : List Char → List Char × List (List Char)
  | [] => ([], [])
  | c :: rest =>
    let r := splitAux sep rest
    if c = sep then ([], r.1 :: r.2) else (c :: r.1, r.2)

/-- Embedding of strings.Split(s, sep) for a one-character separator: the
list of segments between occurrences of sep, never empty as a list. -/

def goSplit (sep : Char) (s : String) : List String :=
  let r := splitAux sep s.data
  (r.1 :: r.2).map String.mk

/-- Embedding of parseVersion(versionText string) (*version, error): splits
on a dot into exactly three segments and converts each with strconv.Atoi,
wrapping the first failure into an error message. The Go code interpolates
splits[0] into the message for all three positions. -/

def parseVersion (versionText : String) : Except String version :=
  match goSplit '.' versionText with
  | [s0, s1, s2] =>
    match goAtoi s0 with
    | .error e =>
      .error ("Error parsing major version number " ++ s0 ++ " to integer. "
        ++ atoiErrorMsg s0 e)
    | .ok major =>
      match goAtoi s1 with
      | .error e =>
        .error ("Error parsing minor version number " ++ s0 ++ " to integer. "
          ++ atoiErrorMsg s1 e)
      | .ok minor =>
        match goAtoi s2 with
        | .error e =>
          .error ("Error parsing patch version number " ++ s0
            ++ " to integer. " ++ atoiErrorMsg s2 e)
        | .ok patch => .ok ⟨major, minor, patch⟩
  | _ =>
    .error "Incorrect number of \x27.\x27 characters in Version. Version should be of the form 1.5.7"

/-- Substring containment, stated on the underlying character lists. -/

def containsStr (h n : String) : Prop :=
  ∃ p q, h.data = p ++ n.data ++ q

/-- Characters in the decimal digit range. -/

def isDigit (c : Char) : Prop := 48 ≤ c.toNat ∧ c.toNat ≤ 57

/-- Scale factor 10 to the number of decimal digits of n. -/

def tenPow (n : Nat) : Nat :=
  if n < 10 then 10 else 10 * tenPow (n / 10)
termination_by n
decreasing_by omega

/-! Filesystem model and embedding of the plugin-resolution functions. -/

/-- Directory entry as ioutil.ReadDir reports it: a name and whether the
entry is a directory. ReadDir returns entries sorted by name; the model
takes the listing as given. -/

structure DirEnt where
  name : String
  isDir : Bool
deriving DecidableEq, Repr

/-- Filesystem view used by the plugin-resolution functions: readDir models
ioutil.ReadDir (none is a listing error), statDir models os.Stat followed by
IsDir (false also covers a stat error, which the Go code skips the same
way). -/

structure FSys where
  readDir : String → Option (List DirEnt)
  statDir : String → Bool

/-- Models path.Join and filepath.Join for cleaned path segments without
trailing separators. -/

def joinPath (dir sub : String) : String := dir ++ "/" ++ sub

/-- Models filepath.Base for the slash-joined paths built here: the part
after the final separator. -/

def goBase (s : String) : String :=
  match (goSplit '/' s).getLast? with
  | some b => b
  | none => s

/-- Embedding of SubDirectoryExists(pluginDir, pluginName): lists pluginDir
and scans for a directory entry carrying the plugin name; a listing error
yields false. -/

def SubDirectoryExists (fsys : FSys) (pluginDir pluginName : String) : Bool :=
  match fsys.readDir pluginDir with
  | none => false
  | some files => files.any (fun f => f.name = pluginName && f.isDir)

/-- Loop of GetPluginsInstallDir over the ordered install prefixes: the
first prefix containing a subdirectory named pluginName. -/

def firstPrefixWith (fsys : FSys) (pluginName : String) :
    List String → Option String
  | [] => none
  | p :: ps =>
    if SubDirectoryExists fsys p pluginName then some p
    else firstPrefixWith fsys pluginName ps

/-- Rendering of a Go []string under the %s verb: elements separated by
spaces inside brackets. -/

def goStringSlice (l : List String) : String :=
  "[" ++ String.intercalate " " l ++ "]"

/-- Embedding of GetPluginsInstallDir(pluginName): walks the install
prefixes in order and returns the first one containing a subdirectory named
pluginName, or the not-installed error naming the plugin and the tried
locations. The ordered prefix list stands for the result of
getPluginInstallPrefixes, the external install-prefix provider. -/

def GetPluginsInstallDir (fsys : FSys) (pluginInstallPrefixes : List String)
    (pluginName : String) : Except String String :=
  match firstPrefixWith fsys pluginName pluginInstallPrefixes with
  | some p => .ok p
  | none =>
    .error ("Plugin \x27" ++ pluginName
      ++ "\x27 not installed on following locations : "
      ++ goStringSlice pluginInstallPrefixes)

/-- Loop of getPluginLatestVersion collecting, over the listing of the
plugin directory, every subdirectory whose name parses as a version. -/

def parsedVersions (files : List DirEnt) : List version :=
  files.filterMap (fun file =>
    if file.isDir then
      match parseVersion file.name with
      | .ok v => some v
      | .error _ => none
    else none)

/-- Embedding of getPluginLatestVersion(pluginDir): lists the directory,
keeps every subdirectory whose name parses as a version, and selects the
latest; fails when the listing fails or when no name parses. -/

def getPluginLatestVersion (fsys : FSys) (pluginDir : String) :
    Except String version :=
  match fsys.readDir pluginDir with
  | none => .error ("Error listing files in plugin directory " ++ pluginDir)
  | some files =>
    match getLatestVersion (parsedVersions files) with
    | some v => .ok v
    | none =>
      .error ("No valid versions of plugin " ++ goBase pluginDir
        ++ " found in " ++ pluginDir)

/-- Embedding of GetLatestInstalledPluginVersionPath(pluginDir): the plugin
directory extended with the canonical string of its latest version. -/

def GetLatestInstalledPluginVersionPath (fsys : FSys) (pluginDir : String) :
    Except String String :=
  match getPluginLatestVersion fsys pluginDir with
  | .error e => .error e
  | .ok v => .ok (joinPath pluginDir (version.String v))

/-- Embedding of GetPluginInstallDir(pluginName, version): resolves the
install prefix, joins the plugin name, then either joins the explicit
version with no existence check or resolves the latest installed version. -/

def GetPluginInstallDir (fsys : FSys) (pluginInstallPrefixes : List String)
    (pluginName ver : String) : Except String String :=
  match GetPluginsInstallDir fsys pluginInstallPrefixes pluginName with
  | .error e => .error e
  | .ok allPluginsInstallDir =>
    if ver ≠ "" then .ok (joinPath (joinPath allPluginsInstallDir pluginName) ver)
    else GetLatestInstalledPluginVersionPath fsys
      (joinPath allPluginsInstallDir pluginName)

/-- Embedding of the Plugin struct returned by the enumeration. -/

structure Plugin where
  Name : String
  Version : version
deriving DecidableEq, Repr

/-- Lookup in the Go map modelled as an association list. -/

def mapGet (m : List (String × Plugin)) (k : String) : Option Plugin :=
  match m with
  | [] => none
  | (k2, v) :: rest => if k2 = k then some v else mapGet rest k

/-- Go map assignment m[k] = v: replaces the value at an existing key,
otherwise appends a new binding. -/

def mapUpd (m : List (String × Plugin)) (k : String) (v : Plugin) :
    List (String × Plugin) :=
  match m with
  | [] => [(k, v)]
  | (k2, v2) :: rest =>
    if k2 = k then (k2, v) :: rest else (k2, v2) :: mapUpd rest k v

/-- Body of the inner loop of GetAllInstalledPluginsWithVersion for one
directory entry of one install prefix: skip entries that do not stat as
directories, skip plugin directories with no valid version, and on a
repeated plugin name keep the overall-latest version by comparing through
getLatestVersion on the pair. -/

def processEntry (fsys : FSys) (prefixDir : String)
    (allPlugins : List (String × Plugin)) (file : DirEnt) :
    List (String × Plugin) :=
  if fsys.statDir (joinPath prefixDir file.name) then
    match getPluginLatestVersion fsys (joinPath prefixDir file.name) with
    | .error _ => allPlugins
    | .ok latestVersion =>
      match mapGet allPlugins file.name with
      | some pluginAdded =>
        match getLatestVersion [pluginAdded.Version, latestVersion] with
        | some latest =>
          if latest = latestVersion then
            mapUpd allPlugins file.name ⟨file.name, latestVersion⟩
          else allPlugins
        | none => allPlugins
      | none => mapUpd allPlugins file.name ⟨file.name, latestVersion⟩
  else allPlugins

/-- Inner loop across the listed entries of one install prefix. -/

def processEntries (fsys : FSys) (prefixDir : String) :
    List (String × Plugin) → List DirEnt → List (String × Plugin)
  | m, [] => m
  | m, f :: fs => processEntries fsys prefixDir (processEntry fsys prefixDir m f) fs

/-- Outer loop of GetAllInstalledPluginsWithVersion across the install
prefixes; a listing error on any prefix aborts the whole enumeration. -/

def processPrefixes (fsys : FSys) :
    List (String × Plugin) → List String → Except String (List (String × Plugin))
  | m, [] => .ok m
  | m, p :: ps =>
    match fsys.readDir p with
    | none => .error ("Error listing files in plugin prefix directory " ++ p)
    | some files => processPrefixes fsys (processEntries fsys p m files) ps

/-- Insertion step of sort.Sort(ByPluginName): ascending by plugin name. -/

def insertByName (p : Plugin) : List Plugin → List Plugin
  | [] => [p]
  | q :: qs => if p.Name < q.Name then p :: q :: qs else q :: insertByName p qs

/-- Comparison sort embedding sort.Sort(ByPluginName). -/

def sortByName : List Plugin → List Plugin
  | [] => []
  | p :: ps => insertByName p (sortByName ps)

/-- Embedding of sortPlugins: the map values sorted by plugin name. -/

def sortPlugins (allPlugins : List (String × Plugin)) : List Plugin :=
  sortByName (allPlugins.map Prod.snd)

/-- Embedding of GetAllInstalledPluginsWithVersion: enumerate every plugin
directory under every install prefix, resolve its latest version, keep one
entry per plugin name, and sort the merged result by name. -/

def GetAllInstalledPluginsWithVersion (fsys : FSys)
    (pluginInstallPrefixes : List String) : Except String (List Plugin) :=
  match processPrefixes fsys [] pluginInstallPrefixes with
  | .error e => .error e
  | .ok m => .ok (sortPlugins m)

/-! Model of the directory mirror. -/

/-- Metadata of a file as os.Stat reports the fields MirrorFile inspects:
regular (Mode & ModeType == 0), size, modification time in Unix seconds,
and the executable-bit state isExecMode (Mode & 0111 != 0). -/

structure FileMeta where
  regular : Bool
  size : Int
  mtimeUnix : Int
  exec : Bool
deriving DecidableEq, Repr

/-- Destination filesystem state of the mirror: metadata of the file stored
at each relative path under dst, none where no file exists. -/

def DstFS : Type := List String → Option FileMeta

/-- Effect on the destination of the Create/Copy/Chmod/Chtimes sequence of
MirrorFile: the destination path now holds a file with the source's
metadata. -/

def writeFile (dst : DstFS) (p : List String) (m : FileMeta) : DstFS :=
  fun q => if q = p then some m else dst q

/-- Embedding of MirrorFile(src, dst) for a source file with stat metadata
sfi and destination relative path p: a non-regular source is fatal
(log.Fatalf); a destination file with the same executable-bit state, regular
mode, same size and same mtime (second resolution) is skipped; otherwise the
file is (re)written with the source's content, permissions and mtime. -/

def MirrorFile (sfi : FileMeta) (dst : DstFS) (p : List String) :
    Except String DstFS :=
  if sfi.regular = false then
    .error "mirrorFile can't deal with non-regular file"
  else
    match dst p with
    | some dfi =>
      if dfi.exec = sfi.exec ∧ dfi.regular = true ∧ dfi.size = sfi.size
          ∧ dfi.mtimeUnix = sfi.mtimeUnix then
        .ok dst
      else
        .ok (writeFile dst p sfi)
    | none => .ok (writeFile dst p sfi)

/-- One regular-file visit of the filepath.Walk traversal under src: the
path of the file relative to src, as components, and its stat metadata.
MirrorDir is modelled over the ordered visit list that Walk produces
(lexical depth-first order); directories are traversed but never appear as
visits. -/

structure WalkEntry where
  rel : List String
  meta : FileMeta
deriving DecidableEq, Repr

/-- Walk loop of MirrorDir: each visited file goes through MirrorFile and
its relative path is appended to filesAdded afterwards, regardless of
whether the copy was skipped — and, mirroring the Go code, which appends
before checking the error, also when MirrorFile failed, in which case the
walk aborts. -/

def mirrorWalk : List WalkEntry → DstFS → List (List String) →
    (List (List String) × Option String) × DstFS
  | [], dst, acc => ((acc, none), dst)
  | e :: rest, dst, acc =>
    match MirrorFile e.meta dst e.rel with
    | .ok dst2 => mirrorWalk rest dst2 (acc ++ [e.rel])
    | .error err => ((acc ++ [e.rel], some err), dst)

/-- Embedding of MirrorDir(src, dst): mirrors every file the walk visits and
returns the accumulated relative paths, the error if any, and the final
destination state. -/

def MirrorDir (srcFiles : List WalkEntry) (dst : DstFS) :
    (List (List String) × Option String) × DstFS :=
  mirrorWalk srcFiles dst []

/-- Destination that already holds every source file unchanged: same
metadata at every visited relative path. -/

def fullyMirrored (srcFiles : List WalkEntry) (dst : DstFS) : Prop :=
  ∀ e ∈ srcFiles, dst e.rel = some e.meta

/-- Sample metadata for the mirror counterexample. -/

def mirrorSampleMeta : FileMeta := ⟨true, 5, 100, false⟩

/-- Sample source walk for the mirror counterexample: one file a.txt. -/

def mirrorSampleSrc : List WalkEntry := [⟨["a.txt"], mirrorSampleMeta⟩]

/-- Sample destination for the mirror counterexample, already holding a.txt
unchanged. -/

def mirrorSampleDst : DstFS :=
  fun p => if p = ["a.txt"] then some mirrorSampleMeta else none

/-- Concrete two-root filesystem for the GetPluginsInstallDir witness: the
first root holds foo only as a plain file, the second as a directory. -/

def fsysC8 : FSys :=
  ⟨fun p =>
    if p = "r1" then some [⟨"foo", false⟩]
    else if p = "r2" then some [⟨"foo", true⟩]
    else none,
   fun _ => false⟩

/-- Concrete filesystem for the plugin-version-resolution witnesses: root r2
holds plugin foo with version directories 1.0.0 and 2.0.0 and a stray bogus
directory. -/

def fsysC9 : FSys :=
  ⟨fun p =>
    if p = "r1" then some []
    else if p = "r2" then some [⟨"foo", true⟩]
    else if p = "r2/foo" then
      some [⟨"1.0.0", true⟩, ⟨"2.0.0", true⟩, ⟨"bogus", true⟩]
    else none,
   fun p => p = "r2/foo" || p = "r2"⟩

/-! Abstract view of the plugin-enumeration merge, used to state and prove
the C10 claim. -/

/-- Candidate version contributed by one listed entry of one install prefix
for a given plugin name: the entry must carry that name, stat as a
directory, and resolve a latest installed version. -/

def entryCand (fsys : FSys) (pre : String) (f : DirEnt) (k : String) :
    List version :=
  if f.name = k ∧ fsys.statDir (joinPath pre f.name) then
    ((getPluginLatestVersion fsys (joinPath pre f.name)).toOption).toList
  else []

/-- Candidate versions contributed by one install prefix for a plugin
name. -/

def rootCands (fsys : FSys) (name pre : String) : List version :=
  (((fsys.readDir pre).getD []).map (fun f => entryCand fsys pre f name)).flatten

/-- All candidate versions for a plugin name across the ordered install
prefixes: the per-root latest versions that the enumeration compares. -/

def candidates (fsys : FSys) (roots : List String) (name : String) :
    List version :=
  (roots.map (rootCands fsys name)).flatten

/-- Value-level effect of the repeated-name branch of the enumeration: the
stored plugin is kept when it is strictly greater, otherwise it is replaced
by the incoming version under the given key. -/

def mergeOne (k : String) (cur : Option Plugin) (v : version) : Option Plugin :=
  match cur with
  | none => some ⟨k, v⟩
  | some p => if isGreaterThan p.Version v then some p else some ⟨k, v⟩

/-- Folded merge of a stream of candidate versions into the slot of one
plugin name. -/

def mergeCands (k : String) : Option Plugin → List version → Option Plugin
  | cur, [] => cur
  | cur, v :: vs => mergeCands k (mergeOne k cur v) vs

/-- Predicate of a well-formed plugin map: every stored plugin carries its
key as name and the keys are distinct. -/

def wfMap (m : List (String × Plugin)) : Prop :=
  (∀ kv ∈ m, (Prod.snd kv).Name = kv.1) ∧ (m.map Prod.fst).Nodup

/-- Concrete two-root filesystem for the enumeration witness: both roots
hold plugin bar, at versions 1.0.0 and 1.5.0 respectively. -/

def fsysC10 : FSys :=
  ⟨fun p =>
    if p = "p1" then some [⟨"bar", true⟩]
    else if p = "p2" then some [⟨"bar", true⟩, ⟨"misc", false⟩]
    else if p = "p1/bar" then some [⟨"1.0.0", true⟩]
    else if p = "p2/bar" then some [⟨"1.5.0", true⟩]
    else none,
   fun p => p = "p1/bar" || p = "p2/bar"⟩

theorem isGreaterThan_iff_lexGt (a b : version) :
    isGreaterThan a b = true ↔ lexGt a b := by
  unfold isGreaterThan lexGt
  split_ifs <;> simp_all

theorem lexGt_irrefl (a : version) : ¬ lexGt a a := by
  unfold lexGt
  omega

theorem lexGt_trans {a b c : version} (h1 : lexGt a b) (h2 : lexGt b c) :
    lexGt a c := by
  unfold lexGt at h1 h2 ⊢
  omega

theorem lexGt_asymm {a b : version} (h1 : lexGt a b) : ¬ lexGt b a := by
  unfold lexGt at h1 ⊢
  omega

theorem lexGt_total (a b : version) : a = b ∨ lexGt a b ∨ lexGt b a := by
  rcases a with ⟨am, an, ap⟩
  rcases b with ⟨bm, bn, bp⟩
  unfold lexGt
  simp only [version.mk.injEq]
  omega

theorem lexGe_antisymm {a b : version} (h1 : lexGe a b) (h2 : lexGe b a) :
    a = b := by
  rcases h1 with h1 | h1
  · exact h1
  · rcases h2 with h2 | h2
    · exact h2.symm
    · exact absurd h1 (lexGt_asymm h2)

theorem lexGe_trans {a b c : version} (h1 : lexGe a b) (h2 : lexGe b c) :
    lexGe a c := by
  rcases h1 with rfl | h1
  · exact h2
  · rcases h2 with rfl | h2
    · exact Or.inr h1
    · exact Or.inr (lexGt_trans h1 h2)

theorem insertDec_perm (v : version) (l : List version) :
    List.Perm (insertDec v l) (v :: l) := by
  induction l with
  | nil => simp [insertDec]
  | cons w ws ih =>
    unfold insertDec
    split
    · exact List.Perm.refl _
    · exact ((ih.cons w).trans (List.Perm.swap v w ws))

theorem sortDec_perm (l : List version) : List.Perm (sortDec l) l := by
  induction l with
  | nil => exact List.Perm.refl _
  | cons v vs ih =>
    exact (insertDec_perm v (sortDec vs)).trans (ih.cons v)

/-- Head of the insertion step is lexGe every element of v :: l provided the
head of l already was lexGe every element of l. -/

theorem insertDec_head_max (v : version) (l : List version)
    (hl : ∀ h t, l = h :: t → ∀ x ∈ l, lexGe h x) :
    ∀ h t, insertDec v l = h :: t → ∀ x ∈ v :: l, lexGe h x := by
  induction l with
  | nil =>
    intro h t heq x hx
    simp [insertDec] at heq
    rcases heq with ⟨rfl, rfl⟩
    simp at hx
    subst hx
    exact Or.inl rfl
  | cons w ws ih =>
    intro h t heq x hx
    unfold insertDec at heq
    split at heq
    · rename_i hgt
      injection heq with h1 h2
      subst h1
      rcases List.mem_cons.mp hx with rfl | hx
      · exact Or.inl rfl
      · have hw : lexGe w x := hl w ws rfl x hx
        have hvw : lexGt v w := (isGreaterThan_iff_lexGt v w).mp hgt
        exact lexGe_trans (Or.inr hvw) hw
    · rename_i hngt
      injection heq with h1 h2
      subst h1
      have hw : ∀ x ∈ w :: ws, lexGe w x := hl w ws rfl
      have hwv : lexGe w v := by
        rcases lexGt_total w v with heq2 | hgt2 | hgt2
        · exact Or.inl heq2
        · exact Or.inr hgt2
        · exact absurd ((isGreaterThan_iff_lexGt v w).mpr hgt2) (by simp [hngt])
      rcases List.mem_cons.mp hx with rfl | hx
      · exact hwv
      · exact hw x hx

/-- Head of sortDec is lexGe every element of the input list. -/

theorem sortDec_head_max (l : List version) :
    ∀ h t, sortDec l = h :: t → ∀ x ∈ l, lexGe h x := by
  induction l with
  | nil => intro h t heq; simp [sortDec] at heq
  | cons v vs ih =>
    intro h t heq x hx
    unfold sortDec at heq
    have hperm : List.Perm (sortDec vs) vs := sortDec_perm vs
    have hmax := insertDec_head_max v (sortDec vs)
      (fun hh tt heqq y hy => ih hh tt heqq y (hperm.mem_iff.mp hy)) h t heq
    rcases List.mem_cons.mp hx with rfl | hx
    · exact hmax x (by simp)
    · exact hmax x (by simp [hperm.mem_iff.mpr hx])

/-- Characterization of getLatestVersion on a non-empty list: it returns an
element of the list that is lexGe every element. -/

theorem getLatestVersion_spec (l : List version) (hne : l ≠ []) :
    ∃ m, getLatestVersion l = some m ∧ m ∈ l ∧ ∀ x ∈ l, lexGe m x := by
  unfold getLatestVersion
  cases hs : sortDec l with
  | nil =>
    exact absurd ((hs ▸ sortDec_perm l).nil_eq).symm hne
  | cons m t =>
    refine ⟨m, rfl, ?_, ?_⟩
    · exact (sortDec_perm l).mem_iff.mp (by rw [hs]; simp)
    · exact sortDec_head_max l m t hs

/-- Any two elements that are both lexGe-maximal in the same list are equal;
hence the value getLatestVersion returns is determined by the multiset of
inputs. -/

theorem max_unique {l : List version} {m m2 : version}
    (hm : m ∈ l ∧ ∀ x ∈ l, lexGe m x) (hm2 : m2 ∈ l ∧ ∀ x ∈ l, lexGe m2 x) :
    m = m2 :=
  lexGe_antisymm (hm.2 m2 hm2.1) (hm2.2 m hm.1)

/-! Lemmas about decimal printing and parsing. -/

theorem digitChar_toNat {d : Nat} (h : d < 10) : (digitChar d).toNat = 48 + d := by
  have hv : (48 + d).isValidChar := Or.inl (by omega)
  simp [digitChar, Char.ofNat, Char.toNat, Char.ofNatAux, hv, UInt32.toNat,
    BitVec.toNat_ofNatLt]

theorem digit?_digitChar {d : Nat} (h : d < 10) :
    digit? (digitChar d) = some d := by
  rw [digit?, digitChar_toNat h]
  rw [if_pos (by omega : 48 ≤ 48 + d ∧ 48 + d ≤ 57)]
  congr 1
  omega

theorem isDigit_digitChar {d : Nat} (h : d < 10) : isDigit (digitChar d) := by
  rw [isDigit, digitChar_toNat h]
  omega

theorem natToDecAux_eq (n : Nat) (acc : List Char) :
    natToDecAux n acc
      = if n < 10 then digitChar n :: acc
        else natToDecAux (n / 10) (digitChar (n % 10) :: acc) := by
  rw [natToDecAux]

theorem natToDecAux_append (n : Nat) :
    ∀ acc, natToDecAux n acc = natToDecAux n [] ++ acc := by
  induction n using Nat.strong_induction_on with
  | _ n ih =>
    intro acc
    by_cases h : n < 10
    · rw [natToDecAux_eq n acc, natToDecAux_eq n [], if_pos h, if_pos h]
      simp
    · rw [natToDecAux_eq n acc, natToDecAux_eq n [], if_neg h, if_neg h,
        ih (n / 10) (by omega) (digitChar (n % 10) :: acc),
        ih (n / 10) (by omega) [digitChar (n % 10)]]
      simp

theorem natToDecAux_ne_nil (n : Nat) : natToDecAux n [] ≠ [] := by
  by_cases h : n < 10
  · rw [natToDecAux_eq, if_pos h]
    simp
  · rw [natToDecAux_eq, if_neg h, natToDecAux_append]
    simp

theorem natToDecAux_digits (n : Nat) : ∀ c ∈ natToDecAux n [], isDigit c := by
  induction n using Nat.strong_induction_on with
  | _ n ih =>
    intro c hc
    by_cases h : n < 10
    · rw [natToDecAux_eq, if_pos h] at hc
      simp at hc
      subst hc
      exact isDigit_digitChar h
    · rw [natToDecAux_eq, if_neg h, natToDecAux_append] at hc
      rcases List.mem_append.mp hc with hc | hc
      · exact ih (n / 10) (by omega) c hc
      · simp at hc
        subst hc
        exact isDigit_digitChar (by omega)

theorem tenPow_eq (n : Nat) :
    tenPow n = if n < 10 then 10 else 10 * tenPow (n / 10) := by
  rw [tenPow]

theorem parseDigitsAux_natToDecAux (n : Nat) :
    ∀ acc l, parseDigitsAux acc (natToDecAux n [] ++ l)
      = parseDigitsAux (acc * tenPow n + n) l := by
  induction n using Nat.strong_induction_on with
  | _ n ih =>
    intro acc l
    by_cases h : n < 10
    · rw [natToDecAux_eq, if_pos h, tenPow_eq, if_pos h]
      simp only [List.cons_append, List.nil_append, parseDigitsAux,
        digit?_digitChar h]
      simp
    · rw [natToDecAux_eq, if_neg h, tenPow_eq, if_neg h, natToDecAux_append]
      have hmod : n % 10 < 10 := by omega
      calc parseDigitsAux acc ((natToDecAux (n / 10) [] ++ [digitChar (n % 10)]) ++ l)
          = parseDigitsAux acc (natToDecAux (n / 10) [] ++ (digitChar (n % 10) :: l)) := by
            simp
        _ = parseDigitsAux (acc * tenPow (n / 10) + n / 10) (digitChar (n % 10) :: l) := by
            rw [ih (n / 10) (by omega)]
        _ = parseDigitsAux ((acc * tenPow (n / 10) + n / 10) * 10 + n % 10) l := by
            simp only [parseDigitsAux, digit?_digitChar hmod]
        _ = parseDigitsAux (acc * (10 * tenPow (n / 10)) + n) l := by
            have hdm : 10 * (n / 10) + n % 10 = n := Nat.div_add_mod n 10
            have heq2 : (acc * tenPow (n / 10) + n / 10) * 10 + n % 10
                = acc * (10 * tenPow (n / 10)) + (10 * (n / 10) + n % 10) := by ring
            rw [heq2, hdm]

theorem parseDigits_natToDec (n : Nat) :
    parseDigits (natToDecAux n []) = some n := by
  cases hd : natToDecAux n [] with
  | nil => exact absurd hd (natToDecAux_ne_nil n)
  | cons c cs =>
    have h1 : parseDigits (c :: cs) = parseDigitsAux 0 (c :: cs) := rfl
    rw [h1, ← hd]
    have h2 := parseDigitsAux_natToDecAux n 0 []
    simp only [List.append_nil] at h2
    rw [h2]
    simp [parseDigitsAux]

theorem isDigit_ne_char {c : Char} (hc : isDigit c) {c2 : Char}
    (h2 : c2.toNat < 48) : c ≠ c2 := by
  intro heq
  rw [isDigit] at hc
  subst heq
  omega

/-- Atoi applied to the decimal print of a Nat within the int64 range. -/

theorem goAtoi_natToDec {n : Nat} (h : (n : Int) ≤ int64Max) :
    goAtoi (natToDec n) = .ok (n : Int) := by
  cases hd : (natToDec n).data with
  | nil => exact absurd hd (natToDecAux_ne_nil n)
  | cons c cs =>
    have hdd : natToDecAux n [] = c :: cs := hd
    have hcdig : isDigit c := natToDecAux_digits n c (by rw [hdd]; simp)
    have hneg : c ≠ '-' := isDigit_ne_char hcdig (by decide)
    have hplus : c ≠ '+' := isDigit_ne_char hcdig (by decide)
    have hor : ¬ (c = '-' ∨ c = '+') := by simp [hneg, hplus]
    have hrange : int64Min ≤ (n : Int) ∧ (n : Int) ≤ int64Max :=
      ⟨le_trans (by rw [int64Min]; omega) (Int.natCast_nonneg n), h⟩
    rw [goAtoi, hd]
    simp only [if_neg hor, ← hdd, parseDigits_natToDec n, if_neg hneg,
      if_pos hrange]

/-- Atoi applied to a minus sign followed by the decimal print of a Nat in
the int64 range: Go accepts the sign and negates the value. -/

theorem goAtoi_neg_natToDec {n : Nat} (h : (n : Int) ≤ int64Max) :
    goAtoi ("-" ++ natToDec n) = .ok (-(n : Int)) := by
  have hd : ("-" ++ natToDec n).data = '-' :: natToDecAux n [] := by
    rw [String.data_append]
    rfl
  have hrange : int64Min ≤ -(n : Int) ∧ -(n : Int) ≤ int64Max := by
    constructor
    · rw [int64Min]
      rw [int64Max] at h
      omega
    · have := Int.natCast_nonneg n
      rw [int64Max]
      omega
  rw [goAtoi, hd]
  simp [parseDigits_natToDec n, hrange.1, hrange.2]

theorem parseDigitsAux0_natToDec (n : Nat) :
    parseDigitsAux 0 (natToDecAux n []) = some n := by
  have h2 := parseDigitsAux_natToDecAux n 0 []
  simp only [List.append_nil] at h2
  rw [h2]
  simp [parseDigitsAux]

/-- Atoi applied to an extra leading zero followed by the decimal print of a
Nat in the int64 range: the leading zero is parsed as a decimal digit and
does not change the value. -/

theorem goAtoi_zero_natToDec {n : Nat} (h : (n : Int) ≤ int64Max) :
    goAtoi ("0" ++ natToDec n) = .ok (n : Int) := by
  have hd : ("0" ++ natToDec n).data = '0' :: natToDecAux n [] := by
    rw [String.data_append]
    rfl
  have hneg : ('0' : Char) ≠ '-' := by decide
  have hor : ¬ (('0' : Char) = '-' ∨ ('0' : Char) = '+') := by decide
  have hrange : int64Min ≤ (n : Int) ∧ (n : Int) ≤ int64Max :=
    ⟨le_trans (by rw [int64Min]; omega) (Int.natCast_nonneg n), h⟩
  have hparse : parseDigits ('0' :: natToDecAux n []) = some n := by
    have h0 : parseDigits ('0' :: natToDecAux n [])
        = parseDigitsAux 0 ('0' :: natToDecAux n []) := rfl
    rw [h0]
    have h1 : parseDigitsAux 0 ('0' :: natToDecAux n [])
        = parseDigitsAux 0 (natToDecAux n []) := by
      simp [parseDigitsAux, digit?]
    rw [h1, parseDigitsAux0_natToDec]
  rw [goAtoi, hd]
  simp only [if_neg hor, hparse, if_neg hneg, if_pos hrange]

/-! Lemmas about the separator split. -/

theorem splitAux_noSep_append (sep : Char) (l2 : List Char) :
    ∀ l1, (∀ c ∈ l1, c ≠ sep) →
      splitAux sep (l1 ++ l2) = (l1 ++ (splitAux sep l2).1, (splitAux sep l2).2) := by
  intro l1
  induction l1 with
  | nil => intro _; simp
  | cons c cs ih =>
    intro h
    have hc : c ≠ sep := h c (by simp)
    have hcs : ∀ x ∈ cs, x ≠ sep := fun x hx => h x (by simp [hx])
    simp only [List.cons_append, splitAux, if_neg hc]
    simp [ih hcs]

theorem splitAux_sep_cons (sep : Char) (l : List Char) :
    splitAux sep (sep :: l) = ([], (splitAux sep l).1 :: (splitAux sep l).2) := by
  simp [splitAux]

theorem splitAux_noSep (sep : Char) (l : List Char) (h : ∀ c ∈ l, c ≠ sep) :
    splitAux sep l = (l, []) := by
  have := splitAux_noSep_append sep [] l h
  simpa [splitAux] using this

/-- strings.Split on a string made of three separator-free segments joined by
the separator yields exactly those three segments. -/

theorem goSplit_three (sep : Char) (s : String) (d0 d1 d2 : List Char)
    (hs : s.data = d0 ++ sep :: (d1 ++ sep :: d2))
    (h0 : ∀ c ∈ d0, c ≠ sep) (h1 : ∀ c ∈ d1, c ≠ sep)
    (h2 : ∀ c ∈ d2, c ≠ sep) :
    goSplit sep s = [String.mk d0, String.mk d1, String.mk d2] := by
  have e2 : splitAux sep d2 = (d2, []) := splitAux_noSep sep d2 h2
  have e3 : splitAux sep (sep :: d2) = ([], [d2]) := by
    rw [splitAux_sep_cons, e2]
  have e4 : splitAux sep (d1 ++ sep :: d2) = (d1, [d2]) := by
    rw [splitAux_noSep_append sep (sep :: d2) d1 h1, e3]
    simp
  have e5 : splitAux sep (sep :: (d1 ++ sep :: d2)) = ([], [d1, d2]) := by
    rw [splitAux_sep_cons, e4]
  have e6 : splitAux sep (d0 ++ sep :: (d1 ++ sep :: d2)) = (d0, [d1, d2]) := by
    rw [splitAux_noSep_append sep (sep :: (d1 ++ sep :: d2)) d0 h0, e5]
    simp
  rw [goSplit, hs, e6]
  simp

/-- Decimal digits are never the dot separator. -/

theorem natToDec_noDot (n : Nat) : ∀ c ∈ natToDecAux n [], c ≠ '.' :=
  fun c hc => isDigit_ne_char (natToDecAux_digits n c hc) (by decide)

/-- Splitting the canonical a.b.c string recovers the three decimal
segments. -/

theorem goSplit_canonical (a b c : Nat) :
    goSplit '.' (natToDec a ++ "." ++ natToDec b ++ "." ++ natToDec c)
      = [natToDec a, natToDec b, natToDec c] := by
  have hs : (natToDec a ++ "." ++ natToDec b ++ "." ++ natToDec c).data
      = natToDecAux a [] ++ '.' :: (natToDecAux b [] ++ '.' :: natToDecAux c []) := by
    simp only [String.data_append]
    show natToDecAux a [] ++ ['.'] ++ natToDecAux b [] ++ ['.'] ++ natToDecAux c []
      = natToDecAux a [] ++ '.' :: (natToDecAux b [] ++ '.' :: natToDecAux c [])
    simp
  exact goSplit_three '.' _ _ _ _ hs (natToDec_noDot a) (natToDec_noDot b)
    (natToDec_noDot c)

/-- Decimal print of a Nat cast to Int, as %d prints it. -/

theorem intToDec_natCast (n : Nat) : intToDec (n : Int) = natToDec n := by
  rw [intToDec, if_neg (by omega : ¬ ((n : Int) < 0)), Int.toNat_natCast]

/-- version.String on a version with non-negative components prints the
canonical a.b.c form. -/

theorem versionString_natCast (a b c : Nat) :
    version.String ⟨(a : Int), (b : Int), (c : Int)⟩
      = natToDec a ++ "." ++ natToDec b ++ "." ++ natToDec c := by
  rw [version.String]
  simp only [intToDec_natCast]

/-- parseVersion on the canonical print of three Nats in the int64 range. -/

theorem parseVersion_canonical {a b c : Nat} (ha : (a : Int) ≤ int64Max)
    (hb : (b : Int) ≤ int64Max) (hc : (c : Int) ≤ int64Max) :
    parseVersion (natToDec a ++ "." ++ natToDec b ++ "." ++ natToDec c)
      = .ok ⟨(a : Int), (b : Int), (c : Int)⟩ := by
  rw [parseVersion, goSplit_canonical a b c]
  simp only [goAtoi_natToDec ha, goAtoi_natToDec hb, goAtoi_natToDec hc]

/-! Containment lemmas for the parseVersion error messages. -/

theorem contains_pos_major (s0 rest : String) :
    containsStr ("Error parsing major version number " ++ s0 ++ " to integer. " ++ rest)
      "major" := by
  refine ⟨("Error parsing " : String).data,
    (" version number " : String).data ++ s0.data
      ++ (" to integer. " : String).data ++ rest.data, ?_⟩
  have hfact : ("Error parsing major version number " : String).data
      = ("Error parsing " : String).data ++ ("major" : String).data
        ++ (" version number " : String).data := by rfl
  simp only [String.data_append, hfact]
  simp

theorem contains_pos_minor (s0 rest : String) :
    containsStr ("Error parsing minor version number " ++ s0 ++ " to integer. " ++ rest)
      "minor" := by
  refine ⟨("Error parsing " : String).data,
    (" version number " : String).data ++ s0.data
      ++ (" to integer. " : String).data ++ rest.data, ?_⟩
  have hfact : ("Error parsing minor version number " : String).data
      = ("Error parsing " : String).data ++ ("minor" : String).data
        ++ (" version number " : String).data := by rfl
  simp only [String.data_append, hfact]
  simp

theorem contains_pos_patch (s0 rest : String) :
    containsStr ("Error parsing patch version number " ++ s0 ++ " to integer. " ++ rest)
      "patch" := by
  refine ⟨("Error parsing " : String).data,
    (" version number " : String).data ++ s0.data
      ++ (" to integer. " : String).data ++ rest.data, ?_⟩
  have hfact : ("Error parsing patch version number " : String).data
      = ("Error parsing " : String).data ++ ("patch" : String).data
        ++ (" version number " : String).data := by rfl
  simp only [String.data_append, hfact]
  simp

theorem contains_quoted_atoiErr (pre s : String) (e : atoiError) :
    containsStr (pre ++ atoiErrorMsg s e) ("\x22" ++ s ++ "\x22") := by
  have h1 : ("strconv.Atoi: parsing \x22" : String).data
      = ("strconv.Atoi: parsing " : String).data ++ ['\x22'] := by rfl
  have h3 : ("\x22" : String).data = ['\x22'] := rfl
  cases e with
  | syntaxErr =>
    refine ⟨pre.data ++ ("strconv.Atoi: parsing " : String).data,
      (": invalid syntax" : String).data, ?_⟩
    have h2 : ("\x22: invalid syntax" : String).data
        = '\x22' :: (": invalid syntax" : String).data := by rfl
    simp only [atoiErrorMsg, String.data_append, h1, h2, h3]
    simp
  | rangeErr =>
    refine ⟨pre.data ++ ("strconv.Atoi: parsing " : String).data,
      (": value out of range" : String).data, ?_⟩
    have h2 : ("\x22: value out of range" : String).data
        = '\x22' :: (": value out of range" : String).data := by rfl
    simp only [atoiErrorMsg, String.data_append, h1, h2, h3]
    simp

/-! Claim theorems for the version parsing and ordering subsystem. -/

/-- C2 counterexample: the claim asserts parseVersion fails on the version
string -1.2.3 with a negative component, but the code parses it successfully
with major = -1, because strconv.Atoi accepts a leading minus sign. -/

theorem claim_C2_counterexample :
    parseVersion "-1.2.3" = Except.ok ⟨-1, 2, 3⟩ := by rfl

/-- C2 (amended): a version segment consisting of a minus sign followed by
decimal digits parses successfully as the negative value (so "-1.2.3" yields
major = -1), and a segment with an extra leading zero parses as the same
decimal value (so "01.2.3" yields major = 1). -/

theorem claim_C2 {a b c : Nat} (ha : (a : Int) ≤ int64Max)
    (hb : (b : Int) ≤ int64Max) (hc : (c : Int) ≤ int64Max) :
    parseVersion ("-" ++ natToDec a ++ "." ++ natToDec b ++ "." ++ natToDec c)
      = .ok ⟨-(a : Int), (b : Int), (c : Int)⟩ ∧
    parseVersion ("0" ++ natToDec a ++ "." ++ natToDec b ++ "." ++ natToDec c)
      = .ok ⟨(a : Int), (b : Int), (c : Int)⟩ := by
  constructor
  · have hsplit : goSplit '.' ("-" ++ natToDec a ++ "." ++ natToDec b ++ "." ++ natToDec c)
        = [String.mk ('-' :: natToDecAux a []), natToDec b, natToDec c] := by
      apply goSplit_three '.' _ ('-' :: natToDecAux a [])
        (natToDecAux b []) (natToDecAux c [])
      · simp only [String.data_append]
        show ("-" : String).data ++ natToDecAux a [] ++ ['.'] ++ natToDecAux b []
            ++ ['.'] ++ natToDecAux c []
          = ('-' :: natToDecAux a []) ++ '.' :: (natToDecAux b [] ++ '.' :: natToDecAux c [])
        simp
      · intro x hx
        rcases List.mem_cons.mp hx with rfl | hx
        · decide
        · exact natToDec_noDot a x hx
      · exact natToDec_noDot b
      · exact natToDec_noDot c
    have hmk : String.mk ('-' :: natToDecAux a []) = "-" ++ natToDec a := by
      apply String.ext
      rw [String.data_append]
      rfl
    rw [parseVersion, hsplit, hmk]
    simp only [goAtoi_neg_natToDec ha, goAtoi_natToDec hb, goAtoi_natToDec hc]
  · have hsplit : goSplit '.' ("0" ++ natToDec a ++ "." ++ natToDec b ++ "." ++ natToDec c)
        = [String.mk ('0' :: natToDecAux a []), natToDec b, natToDec c] := by
      apply goSplit_three '.' _ ('0' :: natToDecAux a [])
        (natToDecAux b []) (natToDecAux c [])
      · simp only [String.data_append]
        show ("0" : String).data ++ natToDecAux a [] ++ ['.'] ++ natToDecAux b []
            ++ ['.'] ++ natToDecAux c []
          = ('0' :: natToDecAux a []) ++ '.' :: (natToDecAux b [] ++ '.' :: natToDecAux c [])
        simp
      · intro x hx
        rcases List.mem_cons.mp hx with rfl | hx
        · decide
        · exact natToDec_noDot a x hx
      · exact natToDec_noDot b
      · exact natToDec_noDot c
    have hmk : String.mk ('0' :: natToDecAux a []) = "0" ++ natToDec a := by
      apply String.ext
      rw [String.data_append]
      rfl
    rw [parseVersion, hsplit, hmk]
    simp only [goAtoi_zero_natToDec ha, goAtoi_natToDec hb, goAtoi_natToDec hc]

/-- Closed instance of the amended C2 claim, discharging its hypotheses at
the concrete inputs of the original claim. -/

theorem claim_C2_witness :
    parseVersion ("-" ++ natToDec 1 ++ "." ++ natToDec 2 ++ "." ++ natToDec 3)
      = .ok ⟨-1, 2, 3⟩ ∧
    parseVersion ("0" ++ natToDec 1 ++ "." ++ natToDec 2 ++ "." ++ natToDec 3)
      = .ok ⟨1, 2, 3⟩ :=
  claim_C2 (by decide) (by decide) (by decide)

/-- C3: selecting the latest version from an empty collection produces no
version value at all. The Go code panics with an index-out-of-range runtime
error on versions[0]; the panic is modelled as none, so no sentinel version
is ever returned. -/

theorem claim_C3 :
    getLatestVersion [] = none ∧ ∀ v : version, getLatestVersion [] ≠ some v := by
  constructor
  · rfl
  · intro v h
    exact Option.noConfusion h

/-- C4: on every non-empty list, getLatestVersion returns an element of the
list that is greater than or equal to every element under the
major/minor/patch order, and the returned value is the same for every
permutation of the input. -/

theorem claim_C4 (l : List version) (hne : l ≠ []) :
    ∃ m, getLatestVersion l = some m ∧ m ∈ l ∧ (∀ x ∈ l, lexGe m x) ∧
      ∀ l2, List.Perm l l2 → getLatestVersion l2 = some m := by
  obtain ⟨m, hsome, hmem, hmax⟩ := getLatestVersion_spec l hne
  refine ⟨m, hsome, hmem, hmax, ?_⟩
  intro l2 hperm
  have hne2 : l2 ≠ [] := by
    intro h
    subst h
    exact hne hperm.symm.nil_eq.symm
  obtain ⟨m2, hsome2, hmem2, hmax2⟩ := getLatestVersion_spec l2 hne2
  have : m2 = m :=
    max_unique ⟨hperm.symm.subset hmem2, fun x hx => hmax2 x (hperm.subset hx)⟩
      ⟨hmem, hmax⟩
  rw [hsome2, this]

/-- Closed instance of C4 at the spec example {1.2.9, 1.3.0, 1.2.10}. -/

theorem claim_C4_witness :
    ∃ m, getLatestVersion [⟨1,2,9⟩, ⟨1,3,0⟩, ⟨1,2,10⟩] = some m
      ∧ m ∈ ([⟨1,2,9⟩, ⟨1,3,0⟩, ⟨1,2,10⟩] : List version)
      ∧ (∀ x ∈ ([⟨1,2,9⟩, ⟨1,3,0⟩, ⟨1,2,10⟩] : List version), lexGe m x)
      ∧ ∀ l2, List.Perm [⟨1,2,9⟩, ⟨1,3,0⟩, ⟨1,2,10⟩] l2 → getLatestVersion l2 = some m :=
  claim_C4 [⟨1,2,9⟩, ⟨1,3,0⟩, ⟨1,2,10⟩] (by simp)

/-- C5: isGreaterThan is exactly the lexicographic strict order on
(major, minor, patch); it is asymmetric and transitive, equal versions are
not greater in either direction, and the latest version of a singleton is
its element. -/

theorem claim_C5 :
    (∀ a b : version, isGreaterThan a b = true ↔ lexGt a b) ∧
    (∀ a b : version, ¬ (isGreaterThan a b = true ∧ isGreaterThan b a = true)) ∧
    (∀ a b c : version,
      isGreaterThan a b = true → isGreaterThan b c = true → isGreaterThan a c = true) ∧
    (∀ a : version, isGreaterThan a a = false) ∧
    (∀ v : version, getLatestVersion [v] = some v) := by
  refine ⟨isGreaterThan_iff_lexGt, ?_, ?_, ?_, ?_⟩
  · intro a b ⟨h1, h2⟩
    exact lexGt_asymm ((isGreaterThan_iff_lexGt a b).mp h1)
      ((isGreaterThan_iff_lexGt b a).mp h2)
  · intro a b c h1 h2
    exact (isGreaterThan_iff_lexGt a c).mpr
      (lexGt_trans ((isGreaterThan_iff_lexGt a b).mp h1)
        ((isGreaterThan_iff_lexGt b c).mp h2))
  · intro a
    rcases hb : isGreaterThan a a with _ | _
    · rfl
    · exact absurd ((isGreaterThan_iff_lexGt a a).mp hb) (lexGt_irrefl a)
  · intro v
    rfl

/-- Closed instance exercising the transitivity component of C5 at concrete
versions. -/

theorem claim_C5_witness :
    isGreaterThan ⟨3,0,0⟩ ⟨1,0,0⟩ = true :=
  claim_C5.2.2.1 ⟨3,0,0⟩ ⟨2,0,0⟩ ⟨1,0,0⟩ (by decide) (by decide)

/-- C6 counterexample: the claim quantifies over all non-negative integers,
but for major = 2^63 (canonical decimal 9223372036854775808, outside the
64-bit int range of strconv.Atoi) parseVersion fails instead of succeeding. -/

theorem claim_C6_counterexample :
    parseVersion "9223372036854775808.0.0"
      = Except.error ("Error parsing major version number 9223372036854775808 to integer. strconv.Atoi: parsing \x229223372036854775808\x22: value out of range") := by
  rfl

/-- C6 (amended): for all non-negative integers a, b, c representable in the
64-bit platform int, parseVersion accepts the canonical string a.b.c with
major = a, minor = b, patch = c, and version.String maps the result back to
the same string. -/

theorem claim_C6 {a b c : Nat} (ha : (a : Int) ≤ int64Max)
    (hb : (b : Int) ≤ int64Max) (hc : (c : Int) ≤ int64Max) :
    parseVersion (natToDec a ++ "." ++ natToDec b ++ "." ++ natToDec c)
      = .ok ⟨(a : Int), (b : Int), (c : Int)⟩ ∧
    version.String ⟨(a : Int), (b : Int), (c : Int)⟩
      = natToDec a ++ "." ++ natToDec b ++ "." ++ natToDec c :=
  ⟨parseVersion_canonical ha hb hc, versionString_natCast a b c⟩

/-- Closed instance of the amended C6 claim at 1.2.3. -/

theorem claim_C6_witness :
    parseVersion (natToDec 1 ++ "." ++ natToDec 2 ++ "." ++ natToDec 3)
      = .ok ⟨1, 2, 3⟩ ∧
    version.String ⟨1, 2, 3⟩ = natToDec 1 ++ "." ++ natToDec 2 ++ "." ++ natToDec 3 :=
  claim_C6 (by decide) (by decide) (by decide)

/-- C7: a string that does not split into exactly three dot-separated
segments fails with the segment-count parse error; with exactly three
segments, the first segment that Atoi rejects produces an error message that
names its position (major, minor or patch) and contains the offending
segment in quotes (inside the embedded strconv error). -/

theorem claim_C7 :
    (∀ s, (goSplit '.' s).length ≠ 3 →
      parseVersion s = .error "Incorrect number of \x27.\x27 characters in Version. Version should be of the form 1.5.7") ∧
    (∀ s s0 s1 s2, goSplit '.' s = [s0, s1, s2] →
      (∀ e, goAtoi s0 = .error e →
        ∃ msg, parseVersion s = .error msg ∧ containsStr msg "major"
          ∧ containsStr msg ("\x22" ++ s0 ++ "\x22")) ∧
      (∀ m0 e, goAtoi s0 = .ok m0 → goAtoi s1 = .error e →
        ∃ msg, parseVersion s = .error msg ∧ containsStr msg "minor"
          ∧ containsStr msg ("\x22" ++ s1 ++ "\x22")) ∧
      (∀ m0 m1 e, goAtoi s0 = .ok m0 → goAtoi s1 = .ok m1 → goAtoi s2 = .error e →
        ∃ msg, parseVersion s = .error msg ∧ containsStr msg "patch"
          ∧ containsStr msg ("\x22" ++ s2 ++ "\x22"))) := by
  constructor
  · intro s hlen
    rcases hl : goSplit '.' s with _ | ⟨x, _ | ⟨y, _ | ⟨z, _ | ⟨w, rest⟩⟩⟩⟩
    · rw [parseVersion, hl]
    · rw [parseVersion, hl]
    · rw [parseVersion, hl]
    · exact absurd (by rw [hl]; rfl) hlen
    · rw [parseVersion, hl]
  · intro s s0 s1 s2 hsl
    refine ⟨?_, ?_, ?_⟩
    · intro e he
      refine ⟨"Error parsing major version number " ++ s0 ++ " to integer. "
        ++ atoiErrorMsg s0 e, by rw [parseVersion, hsl]; simp only [he], ?_, ?_⟩
      · exact contains_pos_major s0 (atoiErrorMsg s0 e)
      · exact contains_quoted_atoiErr _ s0 e
    · intro m0 e h0 he
      refine ⟨"Error parsing minor version number " ++ s0 ++ " to integer. "
        ++ atoiErrorMsg s1 e, by rw [parseVersion, hsl]; simp only [h0, he], ?_, ?_⟩
      · exact contains_pos_minor s0 (atoiErrorMsg s1 e)
      · exact contains_quoted_atoiErr _ s1 e
    · intro m0 m1 e h0 h1 he
      refine ⟨"Error parsing patch version number " ++ s0 ++ " to integer. "
        ++ atoiErrorMsg s2 e, by rw [parseVersion, hsl]; simp only [h0, h1, he], ?_, ?_⟩
      · exact contains_pos_patch s0 (atoiErrorMsg s2 e)
      · exact contains_quoted_atoiErr _ s2 e

/-- Closed instance of C7: the wrong-count arm at "1.2" and the minor arm at
"1.x.3", whose error message names the minor position and quotes the
offending segment x. -/

theorem claim_C7_witness :
    parseVersion "1.2" = .error "Incorrect number of \x27.\x27 characters in Version. Version should be of the form 1.5.7"
    ∧ ∃ msg, parseVersion "1.x.3" = .error msg ∧ containsStr msg "minor"
      ∧ containsStr msg ("\x22" ++ "x" ++ "\x22") :=
  ⟨claim_C7.1 "1.2" (by decide),
    (claim_C7.2 "1.x.3" "1" "x" "3" (by rfl)).2.1 1 .syntaxErr (by rfl) (by rfl)⟩

/-! Claim theorems for the mirror. -/

/-- Unchanged-skip run of the walk loop: when every source file is regular
and the destination already holds it unchanged, no write happens and no
error occurs, yet every visited relative path is still appended. -/

theorem mirrorWalk_skip (dst : DstFS) :
    ∀ (src : List WalkEntry) (acc : List (List String)),
      (∀ e ∈ src, e.meta.regular = true) →
      (∀ e ∈ src, dst e.rel = some e.meta) →
      mirrorWalk src dst acc = ((acc ++ src.map WalkEntry.rel, none), dst) := by
  intro src
  induction src with
  | nil =>
    intro acc _ _
    simp [mirrorWalk]
  | cons e rest ih =>
    intro acc hreg hmir
    have hr : e.meta.regular = true := hreg e (by simp)
    have hm : dst e.rel = some e.meta := hmir e (by simp)
    have hskip : MirrorFile e.meta dst e.rel = .ok dst := by
      rw [MirrorFile, if_neg (by simp [hr]), hm]
      simp [hr]
    rw [mirrorWalk]
    simp only [hskip]
    rw [ih (acc ++ [e.rel]) (fun x hx => hreg x (by simp [hx]))
      (fun x hx => hmir x (by simp [hx]))]
    simp

/-- C1 counterexample: a source tree of one file already fully mirrored into
the destination; the second MirrorDir call reports the skipped path a.txt
instead of the empty list the claim requires. -/

theorem claim_C1_counterexample :
    fullyMirrored mirrorSampleSrc mirrorSampleDst ∧
    (MirrorDir mirrorSampleSrc mirrorSampleDst).1.1 = [["a.txt"]] ∧
    (MirrorDir mirrorSampleSrc mirrorSampleDst).1.1 ≠ [] := by
  refine ⟨?_, by rfl, by decide⟩
  intro e he
  simp only [mirrorSampleSrc, List.mem_singleton] at he
  subst he
  rfl

/-- C1 (amended): mirroring a fully-mirrored unchanged source tree a second
time writes nothing and reports no error, but the returned list is not
empty: it contains the relative path of every visited regular file, in
traversal order, because MirrorDir records every visited file whether or
not the unchanged-file check skipped it. -/

theorem claim_C1 (srcFiles : List WalkEntry) (dst : DstFS)
    (hreg : ∀ e ∈ srcFiles, e.meta.regular = true)
    (hmir : fullyMirrored srcFiles dst) :
    MirrorDir srcFiles dst = ((srcFiles.map WalkEntry.rel, none), dst) := by
  have h := mirrorWalk_skip dst srcFiles [] hreg hmir
  simpa [MirrorDir] using h

/-- Closed instance of the amended C1 claim on the one-file sample. -/

theorem claim_C1_witness :
    MirrorDir mirrorSampleSrc mirrorSampleDst
      = ((mirrorSampleSrc.map WalkEntry.rel, none), mirrorSampleDst) :=
  claim_C1 mirrorSampleSrc mirrorSampleDst (by decide)
    (fun e he => by
      simp only [mirrorSampleSrc, List.mem_singleton] at he
      subst he
      rfl)

/-! Claim theorems for plugin root resolution. -/

theorem firstPrefixWith_none (fsys : FSys) (name : String) :
    ∀ l, (∀ p ∈ l, SubDirectoryExists fsys p name = false) →
      firstPrefixWith fsys name l = none := by
  intro l
  induction l with
  | nil => intro _; rfl
  | cons p ps ih =>
    intro h
    rw [firstPrefixWith, if_neg (by simp [h p (by simp)])]
    exact ih (fun q hq => h q (by simp [hq]))

theorem firstPrefixWith_first (fsys : FSys) (name : String) :
    ∀ (l : List String) (i : Nat) (hi : i < l.length),
      SubDirectoryExists fsys (l.get ⟨i, hi⟩) name = true →
      (∀ j (hj : j < i), SubDirectoryExists fsys (l.get ⟨j, by omega⟩) name = false) →
      firstPrefixWith fsys name l = some (l.get ⟨i, hi⟩) := by
  intro l
  induction l with
  | nil =>
    intro i hi
    simp at hi
  | cons p ps ih =>
    intro i hi hp hprev
    cases i with
    | zero =>
      have hp2 : SubDirectoryExists fsys p name = true := hp
      rw [firstPrefixWith, if_pos hp2]
      rfl
    | succ k =>
      have h0 : SubDirectoryExists fsys p name = false := hprev 0 (by omega)
      rw [firstPrefixWith, if_neg (by simp [h0])]
      exact ih k (by simpa using hi) hp (fun j hj => hprev (j + 1) (by omega))

/-- C8: GetPluginsInstallDir returns the first root, in list order, whose
listing contains a directory entry named pluginName; if no root does, it
fails with the not-installed error naming the plugin and the tried roots. -/

theorem claim_C8 (fsys : FSys) (roots : List String) (name : String) :
    (∀ i (hi : i < roots.length),
      SubDirectoryExists fsys (roots.get ⟨i, hi⟩) name = true →
      (∀ j (hj : j < i), SubDirectoryExists fsys (roots.get ⟨j, by omega⟩) name = false) →
      GetPluginsInstallDir fsys roots name = .ok (roots.get ⟨i, hi⟩)) ∧
    ((∀ p ∈ roots, SubDirectoryExists fsys p name = false) →
      GetPluginsInstallDir fsys roots name
        = .error ("Plugin \x27" ++ name
            ++ "\x27 not installed on following locations : "
            ++ goStringSlice roots)) := by
  constructor
  · intro i hi hp hprev
    rw [GetPluginsInstallDir, firstPrefixWith_first fsys name roots i hi hp hprev]
  · intro h
    rw [GetPluginsInstallDir, firstPrefixWith_none fsys name roots h]

/-- Closed instance of C8: the first root holds foo only as a plain file, so
the second root wins even though it comes later. -/

theorem claim_C8_witness :
    GetPluginsInstallDir fsysC8 ["r1", "r2"] "foo" = .ok "r2" :=
  (claim_C8 fsysC8 ["r1", "r2"] "foo").1 1 (by decide) (by decide)
    (fun j hj => by
      have hj0 : j = 0 := by omega
      subst hj0
      show SubDirectoryExists fsysC8 "r1" "foo" = false
      decide)

/-- C9: with an explicit version the resolved path is the pure join
root/pluginName/version regardless of what the filesystem holds there; with
no explicit version the listing of root/pluginName is filtered to the
subdirectory names that parse as versions — non-parsing names are silently
discarded — failing with the no-valid-versions error when none parses and
otherwise resolving root/pluginName/latest. -/

theorem claim_C9 (fsys : FSys) (roots : List String) (name ver root : String)
    (hroot : GetPluginsInstallDir fsys roots name = .ok root) :
    (ver ≠ "" → GetPluginInstallDir fsys roots name ver
      = .ok (joinPath (joinPath root name) ver)) ∧
    (∀ files, fsys.readDir (joinPath root name) = some files →
      (parsedVersions files = [] →
        GetPluginInstallDir fsys roots name ""
          = .error ("No valid versions of plugin " ++ goBase (joinPath root name)
              ++ " found in " ++ joinPath root name)) ∧
      (parsedVersions files ≠ [] →
        ∃ m, m ∈ parsedVersions files
          ∧ (∀ x ∈ parsedVersions files, lexGe m x)
          ∧ GetPluginInstallDir fsys roots name ""
              = .ok (joinPath (joinPath root name) (version.String m)))) := by
  constructor
  · intro hv
    rw [GetPluginInstallDir, hroot]
    simp only [if_pos hv]
  · intro files hfiles
    constructor
    · intro hempty
      rw [GetPluginInstallDir, hroot]
      simp only []
      rw [if_neg (by simp), GetLatestInstalledPluginVersionPath,
        getPluginLatestVersion, hfiles]
      simp only []
      rw [hempty]
      rfl
    · intro hne
      obtain ⟨m, hsome, hmem, hmax⟩ := getLatestVersion_spec _ hne
      refine ⟨m, hmem, hmax, ?_⟩
      rw [GetPluginInstallDir, hroot]
      simp only []
      rw [if_neg (by simp), GetLatestInstalledPluginVersionPath,
        getPluginLatestVersion, hfiles]
      simp only []
      rw [hsome]

/-- Closed instance of C9 at the spec example: explicit-version resolution
builds the path with no existence check, and latest-version resolution picks
2.0.0 while silently ignoring the bogus directory. -/

theorem claim_C9_witness :
    GetPluginInstallDir fsysC9 ["r1", "r2"] "foo" "9.9.9"
      = .ok (joinPath (joinPath "r2" "foo") "9.9.9") ∧
    ∃ m, m ∈ parsedVersions [⟨"1.0.0", true⟩, ⟨"2.0.0", true⟩, ⟨"bogus", true⟩]
      ∧ (∀ x ∈ parsedVersions [⟨"1.0.0", true⟩, ⟨"2.0.0", true⟩, ⟨"bogus", true⟩], lexGe m x)
      ∧ GetPluginInstallDir fsysC9 ["r1", "r2"] "foo" ""
          = .ok (joinPath (joinPath "r2" "foo") (version.String m)) :=
  ⟨(claim_C9 fsysC9 ["r1", "r2"] "foo" "9.9.9" "r2" (by rfl)).1 (by decide),
    ((claim_C9 fsysC9 ["r1", "r2"] "foo" "" "r2" (by rfl)).2
      [⟨"1.0.0", true⟩, ⟨"2.0.0", true⟩, ⟨"bogus", true⟩] (by rfl)).2 (by decide)⟩

/-! Lemmas for the enumeration merge. -/

theorem getLatestVersion_pair (a b : version) :
    getLatestVersion [a, b] = some (if isGreaterThan a b then a else b) := by
  by_cases h : isGreaterThan a b <;>
    simp [getLatestVersion, sortDec, insertDec, h]

theorem isGreaterThan_ne {a b : version} (h : isGreaterThan a b = true) :
    a ≠ b := by
  intro heq
  subst heq
  exact lexGt_irrefl a ((isGreaterThan_iff_lexGt a a).mp h)

theorem mapGet_upd_self (m : List (String × Plugin)) (k : String) (v : Plugin) :
    mapGet (mapUpd m k v) k = some v := by
  induction m with
  | nil => simp [mapUpd, mapGet]
  | cons kv rest ih =>
    rcases kv with ⟨k2, v2⟩
    by_cases h : k2 = k
    · simp [mapUpd, mapGet, h]
    · simp [mapUpd, mapGet, h, ih]

theorem mapGet_upd_other (m : List (String × Plugin)) (k k2 : String)
    (v : Plugin) (h : k2 ≠ k) : mapGet (mapUpd m k v) k2 = mapGet m k2 := by
  have hkk : ¬ k = k2 := Ne.symm h
  induction m with
  | nil => simp [mapUpd, mapGet, hkk]
  | cons kv rest ih =>
    rcases kv with ⟨k3, v3⟩
    by_cases h3 : k3 = k
    · subst h3
      simp [mapUpd, mapGet, hkk]
    · simp [mapUpd, mapGet, h3, ih]

theorem mergeCands_append (k : String) (cur : Option Plugin)
    (l1 l2 : List version) :
    mergeCands k cur (l1 ++ l2) = mergeCands k (mergeCands k cur l1) l2 := by
  induction l1 generalizing cur with
  | nil => simp [mergeCands]
  | cons v vs ih => simp [mergeCands, ih]

/-- Per-entry step of the enumeration, seen through mapGet: processing one
entry merges that entry's candidate (if any) into the slot of its plugin
name and leaves every other slot unchanged. -/

theorem processEntry_mapGet (fsys : FSys) (pre : String)
    (m : List (String × Plugin)) (f : DirEnt) (k : String) :
    mapGet (processEntry fsys pre m f) k
      = mergeCands k (mapGet m k) (entryCand fsys pre f k) := by
  by_cases hstat : fsys.statDir (joinPath pre f.name)
  · cases hlat : getPluginLatestVersion fsys (joinPath pre f.name) with
    | error e =>
      rw [processEntry, entryCand, if_pos hstat, hlat]
      by_cases hname : f.name = k
      · simp [hname, hstat, mergeCands, Except.toOption]
      · simp [hname, mergeCands]
    | ok v =>
      rw [processEntry, entryCand, if_pos hstat, hlat]
      by_cases hname : f.name = k
      · subst hname
        rw [if_pos ⟨rfl, hstat⟩]
        simp only [Except.toOption, Option.toList]
        cases hcur : mapGet m f.name with
        | none =>
          simp [mergeCands, mergeOne, mapGet_upd_self]
        | some p =>
          simp only []
          rw [getLatestVersion_pair]
          by_cases hgt : isGreaterThan p.Version v
          · have hne : ¬ (p.Version = v) := isGreaterThan_ne hgt
            simp [hgt, hne, mergeCands, mergeOne, hcur]
          · simp [hgt, mergeCands, mergeOne, hcur, mapGet_upd_self]
      · rw [if_neg (fun hcond => hname hcond.1)]
        have hother : mapGet (mapUpd m f.name ⟨f.name, v⟩) k = mapGet m k :=
          mapGet_upd_other m f.name k _ (fun heq => hname heq.symm)
        simp only [mergeCands]
        cases hcur : mapGet m f.name with
        | none => simpa using hother
        | some p =>
          simp only []
          rw [getLatestVersion_pair]
          by_cases hgt : isGreaterThan p.Version v
          · have hne : ¬ (p.Version = v) := isGreaterThan_ne hgt
            simp [hgt, hne]
          · simpa [hgt] using hother
  · rw [processEntry, entryCand, if_neg hstat, if_neg (by simp [hstat])]
    simp [mergeCands]

/-- Entry loop of one prefix, seen through mapGet: the slot of each plugin
name accumulates the candidates of the listed entries, in order. -/

theorem processEntries_mapGet (fsys : FSys) (pre : String) (k : String) :
    ∀ (files : List DirEnt) (m : List (String × Plugin)),
      mapGet (processEntries fsys pre m files) k
        = mergeCands k (mapGet m k)
            ((files.map (fun f => entryCand fsys pre f k)).flatten) := by
  intro files
  induction files with
  | nil =>
    intro m
    simp [processEntries, mergeCands]
  | cons f fs ih =>
    intro m
    rw [processEntries, ih, processEntry_mapGet]
    simp [mergeCands_append]

/-- Prefix loop, seen through mapGet: on success the slot of each plugin
name holds the merge of its candidates across all prefixes, in order. -/

theorem processPrefixes_mapGet (fsys : FSys) (k : String) :
    ∀ (roots : List String) (m m2 : List (String × Plugin)),
      processPrefixes fsys m roots = .ok m2 →
      mapGet m2 k = mergeCands k (mapGet m k) (candidates fsys roots k) := by
  intro roots
  induction roots with
  | nil =>
    intro m m2 h
    injection h with h
    subst h
    simp [candidates, mergeCands]
  | cons r rs ih =>
    intro m m2 h
    rw [processPrefixes] at h
    cases hrd : fsys.readDir r with
    | none =>
      rw [hrd] at h
      exact absurd h (by simp)
    | some files =>
      rw [hrd] at h
      simp only [] at h
      rw [ih (processEntries fsys r m files) m2 h, processEntries_mapGet]
      have hc : candidates fsys (r :: rs) k
          = rootCands fsys k r ++ candidates fsys rs k := by
        simp [candidates]
      have hrc : rootCands fsys k r
          = (files.map (fun f => entryCand fsys r f k)).flatten := by
        rw [rootCands, hrd]
        rfl
      rw [hc, mergeCands_append, hrc]

/-- Characterization of the merged slot when it starts from an existing
plugin keyed correctly: the final plugin keeps the key as name and carries
the maximum of the initial version and all candidates. -/

theorem mergeCands_some_spec (k : String) :
    ∀ (cands : List version) (p : Plugin), p.Name = k →
      ∃ q, mergeCands k (some p) cands = some q ∧ q.Name = k
        ∧ q.Version ∈ p.Version :: cands
        ∧ ∀ x ∈ p.Version :: cands, lexGe q.Version x := by
  intro cands
  induction cands with
  | nil =>
    intro p hp
    exact ⟨p, rfl, hp, by simp, by simp [lexGe]⟩
  | cons v vs ih =>
    intro p hp
    by_cases hgt : isGreaterThan p.Version v
    · have hstep : mergeCands k (some p) (v :: vs) = mergeCands k (some p) vs := by
        simp [mergeCands, mergeOne, hgt]
      obtain ⟨q, hq, hqn, hqm, hqmax⟩ := ih p hp
      refine ⟨q, by rw [hstep, hq], hqn, ?_, ?_⟩
      · rcases List.mem_cons.mp hqm with h | h
        · simp [h]
        · simp [List.mem_cons.mpr (Or.inr (List.mem_cons.mpr (Or.inr h)))]
      · intro x hx
        rcases List.mem_cons.mp hx with h | hx2
        · rw [h]
          exact hqmax p.Version (by simp)
        · rcases List.mem_cons.mp hx2 with h | hx3
          · rw [h]
            have h1 : lexGe q.Version p.Version := hqmax p.Version (by simp)
            have h2 : lexGe p.Version v :=
              Or.inr ((isGreaterThan_iff_lexGt p.Version v).mp hgt)
            exact lexGe_trans h1 h2
          · exact hqmax x (by simp [hx3])
    · have hstep : mergeCands k (some p) (v :: vs)
          = mergeCands k (some ⟨k, v⟩) vs := by
        simp [mergeCands, mergeOne, hgt]
      obtain ⟨q, hq, hqn, hqm, hqmax⟩ := ih ⟨k, v⟩ rfl
      have hpv : lexGe v p.Version := by
        rcases lexGt_total v p.Version with heq | hgt2 | hgt2
        · exact Or.inl heq
        · exact Or.inr hgt2
        · exact absurd ((isGreaterThan_iff_lexGt p.Version v).mpr hgt2)
            (by simp [hgt])
      have hqv : lexGe q.Version v := by
        have hh := hqmax (Plugin.mk k v).Version (by simp)
        simpa using hh
      refine ⟨q, by rw [hstep, hq], hqn, ?_, ?_⟩
      · rcases List.mem_cons.mp hqm with h | h
        · simp at h
          simp [h]
        · simp [List.mem_cons.mpr (Or.inr (List.mem_cons.mpr (Or.inr h)))]
      · intro x hx
        rcases List.mem_cons.mp hx with h | hx2
        · rw [h]
          exact lexGe_trans hqv hpv
        · rcases List.mem_cons.mp hx2 with h | hx3
          · rw [h]
            exact hqv
          · exact hqmax x (by simp [hx3])

/-- Characterization of the merged slot starting empty: the final plugin,
when the candidate stream is non-empty, carries the key as name and the
maximum candidate. -/

theorem mergeCands_none_spec (k : String) (cands : List version)
    (hne : cands ≠ []) :
    ∃ q, mergeCands k none cands = some q ∧ q.Name = k
      ∧ q.Version ∈ cands ∧ ∀ x ∈ cands, lexGe q.Version x := by
  cases cands with
  | nil => exact absurd rfl hne
  | cons v vs =>
    have hstep : mergeCands k none (v :: vs) = mergeCands k (some ⟨k, v⟩) vs := by
      simp [mergeCands, mergeOne]
    obtain ⟨q, hq, hqn, hqm, hqmax⟩ := mergeCands_some_spec k vs ⟨k, v⟩ rfl
    exact ⟨q, by rw [hstep, hq], hqn, by simpa using hqm, by simpa using hqmax⟩

/-! Well-formedness of the plugin map and sortedness of the output. -/

theorem mapUpd_mem (m : List (String × Plugin)) (k : String) (v : Plugin) :
    ∀ kv ∈ mapUpd m k v, kv = (k, v) ∨ kv ∈ m := by
  induction m with
  | nil =>
    intro kv hkv
    simp [mapUpd] at hkv
    simp [hkv]
  | cons kv2 rest ih =>
    rcases kv2 with ⟨k2, v2⟩
    intro kv hkv
    rw [mapUpd] at hkv
    split at hkv
    · rename_i heq
      rcases List.mem_cons.mp hkv with h | h
      · subst heq
        simp [h]
      · simp [h]
    · rcases List.mem_cons.mp hkv with h | h
      · simp [h]
      · rcases ih kv h with h2 | h2
        · simp [h2]
        · simp [h2]

theorem mapUpd_keys (m : List (String × Plugin)) (k : String) (v : Plugin) :
    (mapUpd m k v).map Prod.fst
      = if k ∈ m.map Prod.fst then m.map Prod.fst
        else m.map Prod.fst ++ [k] := by
  induction m with
  | nil => simp [mapUpd]
  | cons kv2 rest ih =>
    rcases kv2 with ⟨k2, v2⟩
    by_cases h : k2 = k
    · subst h
      simp [mapUpd]
    · rw [mapUpd, if_neg h]
      simp only [List.map_cons, ih]
      by_cases h2 : k ∈ rest.map Prod.fst
      · simp [h2, Ne.symm h]
      · simp [h2, Ne.symm h]

theorem wfMap_upd {m : List (String × Plugin)} (hw : wfMap m) (k : String)
    (v : Plugin) (hv : v.Name = k) : wfMap (mapUpd m k v) := by
  obtain ⟨hnames, hnodup⟩ := hw
  constructor
  · intro kv hkv
    rcases mapUpd_mem m k v kv hkv with h | h
    · simp [h, hv]
    · exact hnames kv h
  · rw [mapUpd_keys]
    by_cases h : k ∈ m.map Prod.fst
    · simpa [h] using hnodup
    · simp [h, hnodup, List.nodup_append]

theorem wfMap_processEntry (fsys : FSys) (pre : String)
    {m : List (String × Plugin)} (hw : wfMap m) (f : DirEnt) :
    wfMap (processEntry fsys pre m f) := by
  rw [processEntry]
  by_cases hstat : fsys.statDir (joinPath pre f.name)
  · rw [if_pos hstat]
    cases getPluginLatestVersion fsys (joinPath pre f.name) with
    | error e => exact hw
    | ok v =>
      simp only []
      cases mapGet m f.name with
      | none => exact wfMap_upd hw _ _ rfl
      | some p =>
        simp only []
        cases getLatestVersion [p.Version, v] with
        | none => exact hw
        | some latest =>
          simp only []
          by_cases heq : latest = v
          · rw [if_pos heq]
            exact wfMap_upd hw _ _ rfl
          · rw [if_neg heq]
            exact hw
  · rw [if_neg hstat]
    exact hw

theorem wfMap_processEntries (fsys : FSys) (pre : String) :
    ∀ (files : List DirEnt) (m : List (String × Plugin)), wfMap m →
      wfMap (processEntries fsys pre m files) := by
  intro files
  induction files with
  | nil =>
    intro m hw
    exact hw
  | cons f fs ih =>
    intro m hw
    exact ih (processEntry fsys pre m f) (wfMap_processEntry fsys pre hw f)

theorem wfMap_processPrefixes (fsys : FSys) :
    ∀ (roots : List String) (m m2 : List (String × Plugin)), wfMap m →
      processPrefixes fsys m roots = .ok m2 → wfMap m2 := by
  intro roots
  induction roots with
  | nil =>
    intro m m2 hw h
    injection h with h
    subst h
    exact hw
  | cons r rs ih =>
    intro m m2 hw h
    rw [processPrefixes] at h
    cases hrd : fsys.readDir r with
    | none =>
      rw [hrd] at h
      exact absurd h (by simp)
    | some files =>
      rw [hrd] at h
      simp only [] at h
      exact ih (processEntries fsys r m files) m2
        (wfMap_processEntries fsys r files m hw) h

theorem mem_keys_of_mem_values {m : List (String × Plugin)} (hw : wfMap m)
    {p : Plugin} (hp : p ∈ m.map Prod.snd) : p.Name ∈ m.map Prod.fst := by
  rcases List.mem_map.mp hp with ⟨kv, hkv, hkv2⟩
  have hname := hw.1 kv hkv
  rw [hkv2] at hname
  exact List.mem_map.mpr ⟨kv, hkv, hname.symm⟩

theorem mapGet_of_mem {m : List (String × Plugin)} (hw : wfMap m)
    {p : Plugin} (hp : p ∈ m.map Prod.snd) : mapGet m p.Name = some p := by
  induction m with
  | nil => simp at hp
  | cons kv rest ih =>
    rcases kv with ⟨k2, v2⟩
    have hnd : (k2 :: rest.map Prod.fst).Nodup := by
      have h2 := hw.2
      rwa [List.map_cons] at h2
    have hwrest : wfMap rest :=
      ⟨fun kv2 hkv2 => hw.1 kv2 (by simp [hkv2]), (List.nodup_cons.mp hnd).2⟩
    rw [List.map_cons] at hp
    rcases List.mem_cons.mp hp with h | h
    · have hk2 : v2.Name = k2 := hw.1 (k2, v2) (by simp)
      subst h
      rw [mapGet, if_pos hk2.symm]
    · by_cases hk : k2 = p.Name
      · exfalso
        have hkeys : p.Name ∈ rest.map Prod.fst := mem_keys_of_mem_values hwrest h
        exact (List.nodup_cons.mp hnd).1 (hk ▸ hkeys)
      · rw [mapGet, if_neg hk]
        exact ih hwrest h

/-! Sortedness of the plugin output. -/

theorem insertByName_mem (p : Plugin) (l : List Plugin) :
    ∀ x ∈ insertByName p l, x = p ∨ x ∈ l := by
  induction l with
  | nil =>
    intro x hx
    simp [insertByName] at hx
    simp [hx]
  | cons q qs ih =>
    intro x hx
    rw [insertByName] at hx
    split at hx
    · rcases List.mem_cons.mp hx with h | h
      · simp [h]
      · simp [h]
    · rcases List.mem_cons.mp hx with h | h
      · simp [h]
      · rcases ih x h with h2 | h2
        · simp [h2]
        · simp [h2]

theorem insertByName_perm (p : Plugin) (l : List Plugin) :
    List.Perm (insertByName p l) (p :: l) := by
  induction l with
  | nil => simp [insertByName]
  | cons q qs ih =>
    rw [insertByName]
    split
    · exact List.Perm.refl _
    · exact ((ih.cons q).trans (List.Perm.swap p q qs))

theorem sortByName_perm (l : List Plugin) : List.Perm (sortByName l) l := by
  induction l with
  | nil => exact List.Perm.refl _
  | cons p ps ih =>
    exact (insertByName_perm p (sortByName ps)).trans (ih.cons p)

theorem insertByName_pairwise (p : Plugin) (l : List Plugin)
    (h : List.Pairwise (fun a b : Plugin => ¬ (b.Name < a.Name)) l) :
    List.Pairwise (fun a b : Plugin => ¬ (b.Name < a.Name)) (insertByName p l) := by
  induction l with
  | nil => simp [insertByName]
  | cons q qs ih =>
    obtain ⟨hq, hqs⟩ := List.pairwise_cons.mp h
    rw [insertByName]
    split
    · rename_i hlt
      refine List.pairwise_cons.mpr ⟨?_, h⟩
      intro x hx
      rcases List.mem_cons.mp hx with h2 | h2
      · subst h2
        exact lt_asymm hlt
      · have hle : q.Name ≤ x.Name := not_lt.mp (hq x h2)
        exact not_lt.mpr (le_of_lt (lt_of_lt_of_le hlt hle))
    · rename_i hnlt
      refine List.pairwise_cons.mpr ⟨?_, ih hqs⟩
      intro x hx
      rcases insertByName_mem p qs x hx with h2 | h2
      · subst h2
        exact hnlt
      · exact hq x h2

theorem sortByName_pairwise (l : List Plugin) :
    List.Pairwise (fun a b : Plugin => ¬ (b.Name < a.Name)) (sortByName l) := by
  induction l with
  | nil => simp [sortByName]
  | cons p ps ih => exact insertByName_pairwise p (sortByName ps) ih

/-- C10: on success, GetAllInstalledPluginsWithVersion returns a list that
is strictly sorted by plugin name — so each plugin name appears at most
once — and in which each plugin carries the overall-latest version among
the per-root latest versions resolved for that name across all install
prefixes. -/

theorem claim_C10 (fsys : FSys) (roots : List String) (res : List Plugin)
    (h : GetAllInstalledPluginsWithVersion fsys roots = .ok res) :
    List.Pairwise (fun a b : Plugin => a.Name < b.Name) res ∧
    ∀ p ∈ res, p.Version ∈ candidates fsys roots p.Name
      ∧ ∀ x ∈ candidates fsys roots p.Name, lexGe p.Version x := by
  rw [GetAllInstalledPluginsWithVersion] at h
  cases hm : processPrefixes fsys [] roots with
  | error e =>
    rw [hm] at h
    exact absurd h (by simp)
  | ok m =>
    rw [hm] at h
    simp only [] at h
    injection h with h
    subst h
    have hwf : wfMap m :=
      wfMap_processPrefixes fsys roots [] m ⟨by simp, by simp⟩ hm
    have hperm : List.Perm (sortPlugins m) (m.map Prod.snd) :=
      sortByName_perm (m.map Prod.snd)
    constructor
    · have hsorted : List.Pairwise (fun a b : Plugin => ¬ (b.Name < a.Name))
          (sortPlugins m) := sortByName_pairwise (m.map Prod.snd)
      have hnames_eq : (m.map Prod.snd).map Plugin.Name = m.map Prod.fst := by
        rw [List.map_map]
        exact List.map_congr_left (fun kv hkv => hwf.1 kv hkv)
      have hnodup : ((sortPlugins m).map Plugin.Name).Nodup := by
        have h2 : List.Perm ((sortPlugins m).map Plugin.Name)
            ((m.map Prod.snd).map Plugin.Name) := hperm.map Plugin.Name
        rw [hnames_eq] at h2
        exact h2.nodup_iff.mpr hwf.2
      have hpne : List.Pairwise (fun a b : Plugin => a.Name ≠ b.Name)
          (sortPlugins m) := by
        rw [List.Nodup, List.pairwise_map] at hnodup
        exact hnodup
      exact (hsorted.and hpne).imp
        (fun hab => lt_of_le_of_ne (not_lt.mp hab.1) (Ne.symm hab.2).symm)
    · intro p hp
      have hmem : p ∈ m.map Prod.snd := hperm.subset hp
      have hget : mapGet m p.Name = some p := mapGet_of_mem hwf hmem
      have hchar := processPrefixes_mapGet fsys p.Name roots [] m hm
      rw [hget] at hchar
      cases hc : candidates fsys roots p.Name with
      | nil =>
        rw [hc] at hchar
        simp [mergeCands, mapGet] at hchar
      | cons v vs =>
        rw [hc] at hchar
        obtain ⟨q, hq, hqn, hqm, hqmax⟩ :=
          mergeCands_none_spec p.Name (v :: vs) (by simp)
        have hmg : mapGet ([] : List (String × Plugin)) p.Name = none := rfl
        rw [hmg, hq] at hchar
        injection hchar with hchar
        subst hchar
        exact ⟨hqm, hqmax⟩

/-- Closed instance of C10 at the spec example: two roots both hold plugin
bar, at 1.0.0 and 1.5.0; the enumeration returns bar exactly once at
1.5.0. -/

theorem claim_C10_witness :
    List.Pairwise (fun a b : Plugin => a.Name < b.Name)
      [(⟨"bar", ⟨1, 5, 0⟩⟩ : Plugin)] ∧
    ∀ p ∈ [(⟨"bar", ⟨1, 5, 0⟩⟩ : Plugin)],
      p.Version ∈ candidates fsysC10 ["p1", "p2"] p.Name
        ∧ ∀ x ∈ candidates fsysC10 ["p1", "p2"] p.Name, lexGe p.Version x :=
  claim_C10 fsysC10 ["p1", "p2"] [⟨"bar", ⟨1, 5, 0⟩⟩] (by rfl)

end GetgaugeCommon

